import Mathlib

/-!
Verification of the `link-types` build utility of the plugin-types repository.

The script walks a directory tree (`linkTypes`), writes one `index.d.ts`
per directory containing one reference line per qualifying entry, scans
marked files with the regular expression `^\t(interface|type)\s+(\w+)` in
global multiline mode, collects the captured identifiers into a set, and
finally (`generateRootIndex`) emits a root artifact with five fixed
reference lines and a sorted re-export block.

Everything below is a shallow embedding of that script: strings are
`String`/`List Char`, the filesystem is an inductive tree, the regular
expression is modelled by an explicit scanner with ECMAScript semantics
(`^` in multiline mode anchors after any line terminator, `\s` may match
line terminators, `matchAll` resumes at the end of the previous match).
-/

/-! ## Definitions: the shallow embedding of the script -/

/-- ECMAScript `\w`: ASCII letters, digits and underscore. -/
def isWordChar (c : Char) : Bool :=
  (('a' ≤ c) && (c ≤ 'z')) || (('A' ≤ c) && (c ≤ 'Z')) ||
  (('0' ≤ c) && (c ≤ '9')) || c == '_'

/-- ECMAScript LineTerminator: LF, CR, LS, PS. `^` in multiline mode
matches right after any of these. -/
def isLineTerm (c : Char) : Bool :=
  c == '\n' || c == '\r' || c == '\u2028' || c == '\u2029'

/-- ECMAScript `\s`: WhiteSpace plus LineTerminator. -/
def isJsSpace (c : Char) : Bool :=
  c == '\t' || c == '\n' || c == '\x0b' || c == '\x0c' || c == '\r' ||
  c == ' ' || c == '\u00A0' || c == '\u1680' ||
  (('\u2000' ≤ c) && (c ≤ '\u200A')) ||
  c == '\u2028' || c == '\u2029' || c == '\u202F' || c == '\u205F' ||
  c == '\u3000' || c == '\uFEFF'

/-- The alternation `(interface|type)` applied at a position: returns the
remaining input after the matched keyword. The two alternatives can never
both be prefixes of the same input (they differ at the first character),
so committed first-match selection is faithful to backtracking. -/
def matchKeyword (cs : List Char) : Option (List Char) :=
  if List.isPrefixOf "interface".data cs then some (cs.drop 9)
  else if List.isPrefixOf "type".data cs then some (cs.drop 4)
  else none

/-- One attempt of the pattern at a position that satisfies the `^` anchor:
`\t`, then the keyword alternation, then `\s+` (greedy, may cross line
terminators), then `(\w+)` (greedy). Since `\s` and `\w` are disjoint the
greedy runs need no backtracking. Returns the captured identifier and the
input remaining after the whole match. -/
def matchAt (cs : List Char) : Option (String × List Char) :=
  match cs with
  | [] => none
  | c :: r =>
    if c == '\t' then
      match matchKeyword r with
      | none => none
      | some r2 =>
        let ws := r2.takeWhile isJsSpace
        if ws.isEmpty then none
        else
          let r3 := r2.dropWhile isJsSpace
          let id := r3.takeWhile isWordChar
          if id.isEmpty then none
          else some (String.mk id, r3.dropWhile isWordChar)
    else none

/-- Drop characters up to and including the next line terminator: moves to
the next position where the multiline `^` anchor can hold. -/
def dropLine : List Char → List Char
  | [] => []
  | c :: cs => if isLineTerm c then cs else dropLine cs

/-- Fuelled scanner implementing `matchAll`: try the pattern at the current
anchor position; on success emit the capture and resume at the first anchor
position after the match end, otherwise move to the next anchor position. -/
def scanFuel : Nat → List Char → List String
  | 0, _ => []
  | fuel + 1, cs =>
    match matchAt cs with
    | some (id, rest) => id :: scanFuel fuel (dropLine rest)
    | none => if cs.isEmpty then [] else scanFuel fuel (dropLine cs)

/-- `content.matchAll(/^\t(interface|type)\s+(\w+)/gm)`, second captures in
match order. -/
def extractTypesFromNamespace (content : String) : List String :=
  scanFuel (content.data.length + 1) content.data

/-- Substring occurrence test on character lists: some suffix of `s` has
`pat` as a prefix. This is `String.prototype.includes(pat)`. -/
def containsSub (pat : List Char) : List Char → Bool
  | [] => List.isPrefixOf pat []
  | c :: cs => List.isPrefixOf pat (c :: cs) || containsSub pat cs

/-- `s.includes(pat)` on Lean strings. -/
def includesStr (s pat : String) : Bool :=
  containsSub pat.data s.data

/-- The marker test guarding extraction in `linkTypes`:
`content.includes("declare namespace Acode") || content.includes("namespace Acode")`. -/
def hasAcodeMarker (content : String) : Bool :=
  includesStr content "declare namespace Acode" || includesStr content "namespace Acode"

/-- Modelled from the claim of C10: the proposed single-test replacement,
`content.includes("namespace Acode")` alone. -/
def singleMarkerTest (content : String) : Bool :=
  includesStr content "namespace Acode"

/-- `collectedTypes.add(t)`: insertion-ordered, duplicates ignored. -/
def addType (col : List String) (t : String) : List String :=
  if t ∈ col then col else col ++ [t]

/-- Add every extracted name in order. -/
def addTypes (col : List String) : List String → List String
  | [] => col
  | t :: ts => addTypes (addType col t) ts

/-- JS default `Array.prototype.sort` on a list of identifiers: the sorted
permutation under string comparison (code-point lexicographic, which for
the ASCII identifiers captured by `\w+` coincides with UTF-16 order). -/
def sortStrs (l : List String) : List String :=
  List.insertionSort (· ≤ ·) l

mutual
/-- A node of the scanned tree: a file with raw text content, or a
directory with its listing in `readdirSync` order. -/
inductive FSTree where
  | file (content : String)
  | dir (entries : FSList)
/-- A directory listing: named entries in filesystem order. -/
inductive FSList where
  | nil
  | cons (name : String) (t : FSTree) (rest : FSList)
end

/-- Reference line for a sibling file entry. -/
def refLineFile (p : String) : String :=
  "/// <reference path=\"./" ++ p ++ "\" />"

/-- Reference line for a subdirectory entry, pointing at its generated
index. -/
def refLineDir (p : String) : String :=
  "/// <reference path=\"./" ++ p ++ "/index.d.ts\" />"

/-- The generated per-directory index artifact: newline-joined reference
lines plus a trailing newline. -/
def mkIndexContent (refs : List String) : String :=
  String.intercalate "\n" refs ++ "\n"

mutual
/-- Process a single directory entry, as the body of the `for` loop of
`linkTypes` does: a file is skipped entirely when named `index.d.ts` or
`test.ts`, otherwise it contributes a reference line and, when marked, its
extracted names; a directory is recursed into unconditionally and then
contributes a reference to its generated index. Returns (reference lines
contributed to the parent, writes performed in chronological order, updated
collected set). Paths are directory-component lists relative to the scan
root. -/
def processEntry (path : List String) (col : List String) (name : String) :
    FSTree → List String × List (List String × String) × List String
  | .file content =>
    if name == "index.d.ts" || name == "test.ts" then ([], [], col)
    else
      ([refLineFile name], [],
        if hasAcodeMarker content then addTypes col (extractTypesFromNamespace content)
        else col)
  | .dir es =>
    let rd := processEntries (path ++ [name]) col es
    ([refLineDir name],
      rd.2.1 ++ [(path ++ [name, "index.d.ts"], mkIndexContent rd.1)],
      rd.2.2)
/-- Process a directory listing in order, threading the collected set. -/
def processEntries (path : List String) (col : List String) :
    FSList → List String × List (List String × String) × List String
  | .nil => ([], [], col)
  | .cons name t rest =>
    let r := processEntry path col name t
    let rr := processEntries path r.2.2 rest
    (r.1 ++ rr.1, r.2.1 ++ rr.2.1, rr.2.2)
end

/-- One re-export line of the module block. -/
def exportLine (t : String) : String :=
  "\texport type " ++ t ++ " = Acode." ++ t ++ ";"

/-- `generateModuleExports`: sort the collected names and wrap the
re-export lines in the synthetic `declare module "acode"` block. -/
def generateModuleExports (col : List String) : String :=
  "declare module \"acode\" \x7b\n" ++
    String.intercalate "\n" ((sortStrs col).map exportLine) ++ "\n\x7d"

/-- The five fixed reference lines of the root artifact. -/
def rootRefs : List String :=
  ["/// <reference path=\"./src/index.d.ts\" />",
   "/// <reference path=\"./types/ace/index.d.ts\" />",
   "/// <reference path=\"./types/require.d.ts\" />",
   "/// <reference path=\"./types/xterm.d.ts\" />",
   "/// <reference path=\"./types/html-tag-js.d.ts\" />"]

/-- `generateRootIndex`: fixed reference lines, blank line, module block,
trailing newline. -/
def generateRootIndex (col : List String) : String :=
  String.intercalate "\n" rootRefs ++ "\n\n" ++ generateModuleExports col ++ "\n"

/-- Everything one invocation of the script produces. -/
structure RunOutput where
  treeWrites : List (List String × String)
  rootContent : String
  collected : List String
deriving DecidableEq

/-- The whole generator: `linkTypes(BASE_DIR)` followed by
`writeFileSync(ROOT_INDEX, generateRootIndex())`. `treeWrites` are the
`index.d.ts` writes inside the scanned tree in chronological order (the
scan root's own index last); the root artifact lives outside the scanned
tree and is recorded separately. -/
def runGen (tree : FSList) : RunOutput :=
  let r := processEntries [] [] tree
  { treeWrites := r.2.1 ++ [(["index.d.ts"], mkIndexContent r.1)]
    rootContent := generateRootIndex r.2.2
    collected := r.2.2 }

/-- Modelled from the claim of C1 (and spec section 8): exclusion by
reserved NAME applied to every entry, files and subdirectories alike; each
remaining file entry yields a direct reference, each remaining subdirectory
entry a reference to its index. -/
def claimRefs : FSList → List String
  | .nil => []
  | .cons n t rest =>
    if n == "index.d.ts" || n == "test.ts" then claimRefs rest
    else
      (match t with
       | .file _ => refLineFile n
       | .dir _ => refLineDir n) :: claimRefs rest

/-- The reference lines the code actually emits for a listing: the
reserved-name exclusion applies only to file entries; directory entries
always yield a subdirectory reference line. -/
def amendedRefs : FSList → List String
  | .nil => []
  | .cons n t rest =>
    match t with
    | .file _ =>
      if n == "index.d.ts" || n == "test.ts" then amendedRefs rest
      else refLineFile n :: amendedRefs rest
    | .dir _ => refLineDir n :: amendedRefs rest

/-- Every entry of the listing is a file named `index.d.ts` or `test.ts`
(in particular `.nil` qualifies). -/
def allExcludedB : FSList → Bool
  | .nil => true
  | .cons n t rest =>
    (match t with
     | .file _ => n == "index.d.ts" || n == "test.ts"
     | .dir _ => false) && allExcludedB rest

/-- The scenario tree: `a.ts` (no marker), `b.ts` (the one-line namespace
with `type Foo` inside), subdirectory `sub/` with `c.ts` (marker, declaring
`interface Bar` at single-tab indent). -/
def treeC7 : FSList :=
  .cons "a.ts" (.file "let a = 1;\n")
    (.cons "b.ts" (.file "declare namespace Acode \x7b type Foo = string; \x7d")
      (.cons "sub"
        (.dir (.cons "c.ts"
          (.file "declare namespace Acode \x7b\n\tinterface Bar \x7b\n\t\tname: string;\n\t\x7d\n\x7d\n")
          .nil))
        .nil))

def isFileB : FSTree → Bool
  | .file _ => true
  | .dir _ => false

/-- `writeFileSync(dir/fname, content)` at the final directory: overwrite
the entry of that name, or append a new file entry. -/
def setFile : FSList → String → String → FSList
  | .nil, fname, content => .cons fname (.file content) .nil
  | .cons n t rest, fname, content =>
    if n == fname then .cons n (.file content) rest
    else .cons n t (setFile rest fname content)

/-- Apply `f` inside the first directory entry named `d` (file entries of
that name cannot be descended into and are passed over). -/
def mapDirAt (d : String) (f : FSList → FSList) : FSList → FSList
  | .nil => .nil
  | .cons n t rest =>
    match t with
    | .file c => .cons n (.file c) (mapDirAt d f rest)
    | .dir inner =>
      if n == d then .cons n (.dir (f inner)) rest
      else .cons n (.dir inner) (mapDirAt d f rest)

/-- `writeFileSync` along a path of directory components followed by the
filename; a missing directory is a no-op (the run only writes to
directories it just listed, so this case never fires for run-produced
writes). -/
def applyWrite : List String → String → FSList → FSList
  | [], _, es => es
  | [fname], content, es => setFile es fname content
  | d :: p1 :: p, content, es => mapDirAt d (applyWrite (p1 :: p) content) es

/-- All writes of a run, chronologically. -/
def applyWrites (es : FSList) (ws : List (List String × String)) : FSList :=
  ws.foldl (fun acc w => applyWrite w.1 w.2 acc) es

mutual
/-- Remove the entries the traversal ignores: file entries named
`index.d.ts` or `test.ts`, recursively. -/
def stripTree : FSTree → FSTree
  | .file c => .file c
  | .dir es => .dir (stripList es)
def stripList : FSList → FSList
  | .nil => .nil
  | .cons n t rest =>
    if (n == "index.d.ts" || n == "test.ts") && isFileB t then stripList rest
    else .cons n (stripTree t) (stripList rest)
end

mutual
/-- No directory entry anywhere in the tree is named `index.d.ts` (on such
a tree a real run would abort with EISDIR when writing that directory's
parent index, so the two-run comparison only makes sense without them). -/
def noIndexDirTree : FSTree → Bool
  | .file _ => true
  | .dir es => noIndexDirList es
def noIndexDirList : FSList → Bool
  | .nil => true
  | .cons n t rest =>
    (isFileB t || n != "index.d.ts") && noIndexDirTree t && noIndexDirList rest
end

/-- Split at line terminators; every terminator ends a line, the final
line is unterminated (ECMAScript line structure). -/
def splitLinesAux (acc : List Char) : List Char → List (List Char)
  | [] => [acc.reverse]
  | c :: cs =>
    if isLineTerm c then acc.reverse :: splitLinesAux [] cs
    else splitLinesAux (c :: acc) cs

/-- The lines of a content string. -/
def splitLines (cs : List Char) : List (List Char) :=
  splitLinesAux [] cs

/-- The line begins with the single indentation unit followed by one of the
two keywords — i.e. the extraction pattern starts matching here. -/
def startsTabKwB : List Char → Bool
  | [] => false
  | c :: r => c == '\t' && (matchKeyword r).isSome

/-- Every line that begins with tab+keyword completes the whole pattern
within the line (whitespace then identifier before the line ends). A file
violating this has a tab+keyword line whose greedy whitespace run swallows
the line terminator, making the match cross lines and skip the next line
start. -/
def linesOkB (content : String) : Bool :=
  (splitLines content.data).all fun l => !(startsTabKwB l) || (matchAt l).isSome

/-- No character of the list is a line terminator (true of every line
produced by `splitLines`). -/
def noTermB (l : List Char) : Bool :=
  l.all fun c => !isLineTerm c

/-- A file entry named `name` with raw text `content` occurs somewhere in
the listing (at top level or inside any subdirectory). -/
inductive FileInList : FSList → String → String → Prop where
  | head (name content : String) (rest : FSList) :
      FileInList (.cons name (.file content) rest) name content
  | tail {es : FSList} {name content : String} (n : String) (t : FSTree) :
      FileInList es name content → FileInList (.cons n t es) name content
  | sub {es : FSList} {name content : String} (d : String) (rest : FSList) :
      FileInList es name content → FileInList (.cons d (.dir es) rest) name content

/-! ## Theorems -/

theorem lineTerm_cases {c : Char} (h : isLineTerm c = true) :
    c = '\n' ∨ c = '\r' ∨ c = ' ' ∨ c = ' ' := by
  simpa [isLineTerm, or_assoc] using h

theorem lineTerm_isJsSpace {c : Char} (h : isLineTerm c = true) : isJsSpace c = true := by
  rcases lineTerm_cases h with h | h | h | h <;> subst h <;> decide

theorem lineTerm_not_word {c : Char} (h : isLineTerm c = true) : isWordChar c = false := by
  rcases lineTerm_cases h with h | h | h | h <;> subst h <;> decide

theorem lineTerm_not_tab {c : Char} (h : isLineTerm c = true) : (c == '\t') = false := by
  rcases lineTerm_cases h with h | h | h | h <;> subst h <;> decide

theorem dropLine_length_le : ∀ l : List Char, (dropLine l).length ≤ l.length := by
  intro l
  induction l with
  | nil => simp [dropLine]
  | cons c cs ih =>
    simp only [dropLine]
    split
    · simp
    · exact Nat.le_trans ih (Nat.le_succ _)

theorem dropLine_length_lt : ∀ l : List Char, l ≠ [] → (dropLine l).length < l.length := by
  intro l h
  match l with
  | c :: cs =>
    simp only [dropLine]
    split
    · simp
    · exact Nat.lt_succ_of_le (dropLine_length_le cs)

theorem length_dropWhile_le (p : Char → Bool) : ∀ l : List Char, (l.dropWhile p).length ≤ l.length := by
  intro l
  induction l with
  | nil => simp [List.dropWhile]
  | cons c cs ih =>
    simp only [List.dropWhile]
    split
    · exact Nat.le_trans ih (Nat.le_succ _)
    · simp

theorem matchAt_length_lt {cs rest : List Char} {id : String}
    (h : matchAt cs = some (id, rest)) : rest.length < cs.length := by
  match cs with
  | [] => simp [matchAt] at h
  | c :: r =>
    simp only [matchAt] at h
    split at h
    · rename_i htab
      cases hk : matchKeyword r with
      | none => rw [hk] at h; exact absurd h (by simp)
      | some r2 =>
        rw [hk] at h
        simp only [] at h
        split at h
        · exact absurd h (by simp)
        · split at h
          · exact absurd h (by simp)
          · have hrest : rest = (r2.dropWhile isJsSpace).dropWhile isWordChar := by
              have h3 := Option.some.inj h
              exact (congrArg Prod.snd h3).symm
            have h2 : r2.length ≤ r.length := by
              simp only [matchKeyword] at hk
              split at hk
              · cases hk; simp [List.length_drop]
              · split at hk
                · cases hk; simp [List.length_drop]
                · exact absurd hk (by simp)
            calc rest.length
                ≤ (r2.dropWhile isJsSpace).length := by
                  rw [hrest]; exact length_dropWhile_le _ _
              _ ≤ r2.length := length_dropWhile_le _ _
              _ ≤ r.length := h2
              _ < (c :: r).length := by simp
    · exact absurd h (by simp)

theorem scanFuel_congr : ∀ f g : Nat, ∀ cs : List Char,
    cs.length < f → cs.length < g → scanFuel f cs = scanFuel g cs := by
  intro f
  induction f with
  | zero => intro g cs hf; omega
  | succ f ih =>
    intro g cs hf hg
    match g with
    | 0 => omega
    | g + 1 =>
      simp only [scanFuel]
      cases hm : matchAt cs with
      | some pr =>
        obtain ⟨id, rest⟩ := pr
        have hlt := matchAt_length_lt hm
        have := dropLine_length_le rest
        simp only []
        rw [ih g (dropLine rest) (by omega) (by omega)]
      | none =>
        simp only []
        split
        · rfl
        · rename_i hne
          have hcs : cs ≠ [] := by
            intro hh; rw [hh] at hne; simp at hne
          have := dropLine_length_lt cs hcs
          rw [ih g (dropLine cs) (by omega) (by omega)]

/-- The fuel in `extractTypesFromNamespace` is invisible: the scanner
satisfies its intended unfolding equation. -/
theorem scan_unfold (cs : List Char) :
    scanFuel (cs.length + 1) cs =
      match matchAt cs with
      | some (id, rest) => id :: scanFuel ((dropLine rest).length + 1) (dropLine rest)
      | none => if cs.isEmpty then [] else scanFuel ((dropLine cs).length + 1) (dropLine cs) := by
  have hstep : scanFuel (cs.length + 1) cs =
      match matchAt cs with
      | some (id, rest) => id :: scanFuel cs.length (dropLine rest)
      | none => if cs.isEmpty then [] else scanFuel cs.length (dropLine cs) := rfl
  rw [hstep]
  cases hm : matchAt cs with
  | some pr =>
    obtain ⟨id, rest⟩ := pr
    have hlt := matchAt_length_lt hm
    have hle := dropLine_length_le rest
    simp only []
    by_cases hz : cs.length = 0
    · omega
    · rw [scanFuel_congr (cs.length) ((dropLine rest).length + 1) (dropLine rest) (by omega) (by omega)]
  | none =>
    simp only []
    split
    · rfl
    · rename_i hne
      have hcs : cs ≠ [] := by intro hh; rw [hh] at hne; simp at hne
      have := dropLine_length_lt cs hcs
      rw [scanFuel_congr (cs.length) ((dropLine cs).length + 1) (dropLine cs) (by omega) (by omega)]

theorem containsSub_of_isPrefixOf {p l : List Char} (h : List.isPrefixOf p l = true) :
    containsSub p l = true := by
  cases l with
  | nil => simpa [containsSub] using h
  | cons c cs => simp [containsSub, h]

theorem containsSub_of_append_isPrefixOf {a b l : List Char}
    (h : List.isPrefixOf (a ++ b) l = true) : containsSub b l = true := by
  induction a generalizing l with
  | nil => exact containsSub_of_isPrefixOf (by simpa using h)
  | cons x a' ih =>
    cases l with
    | nil => simp [List.isPrefixOf] at h
    | cons y l' =>
      simp only [List.cons_append, List.isPrefixOf, Bool.and_eq_true] at h
      have := ih h.2
      simp [containsSub, this]

theorem containsSub_append_mono {a b s : List Char}
    (h : containsSub (a ++ b) s = true) : containsSub b s = true := by
  induction s with
  | nil => exact containsSub_of_append_isPrefixOf (by simpa [containsSub] using h)
  | cons c cs ih =>
    simp only [containsSub, Bool.or_eq_true] at h ⊢
    rcases h with h | h
    · have h2 := containsSub_of_append_isPrefixOf h
      simp only [containsSub, Bool.or_eq_true] at h2
      exact h2
    · exact Or.inr (ih h)

theorem mem_addType_left {col : List String} {t x : String} (h : x ∈ col) :
    x ∈ addType col t := by
  unfold addType
  split
  · exact h
  · exact List.mem_append_left _ h

theorem mem_addType_self (col : List String) (t : String) : t ∈ addType col t := by
  unfold addType
  split
  · assumption
  · exact List.mem_append_right _ (List.mem_singleton.mpr rfl)

theorem mem_addTypes_left {col : List String} {x : String} (h : x ∈ col) :
    ∀ ts, x ∈ addTypes col ts := by
  intro ts
  induction ts generalizing col with
  | nil => exact h
  | cons t ts ih => exact ih (mem_addType_left h)

theorem mem_addTypes_right {x : String} : ∀ {ts : List String} (col : List String),
    x ∈ ts → x ∈ addTypes col ts := by
  intro ts
  induction ts with
  | nil => intro col h; cases h
  | cons t ts ih =>
    intro col h
    rcases List.mem_cons.mp h with h | h
    · subst h; exact mem_addTypes_left (mem_addType_self col x) ts
    · exact ih _ h

theorem nodup_addType {col : List String} (h : col.Nodup) (t : String) :
    (addType col t).Nodup := by
  unfold addType
  split
  · exact h
  · rename_i hnot
    simpa [List.nodup_append] using ⟨h, hnot⟩

theorem nodup_addTypes {col : List String} (h : col.Nodup) :
    ∀ ts, (addTypes col ts).Nodup := by
  intro ts
  induction ts generalizing col with
  | nil => exact h
  | cons t ts ih => exact ih (nodup_addType h t)

theorem sortStrs_sorted (l : List String) : List.Sorted (· ≤ ·) (sortStrs l) :=
  List.sorted_insertionSort _ l

theorem sortStrs_perm (l : List String) : List.Perm (sortStrs l) l :=
  List.perm_insertionSort _ l

theorem refs_eq_amendedRefs : ∀ (es : FSList) (path col : List String),
    (processEntries path col es).1 = amendedRefs es
  | .nil, _, _ => rfl
  | .cons n t rest, path, col => by
    cases t with
    | file content =>
      simp only [processEntries, processEntry, amendedRefs]
      by_cases h : (n == "index.d.ts" || n == "test.ts") = true
      · rw [if_pos h, if_pos h]
        simpa using refs_eq_amendedRefs rest path col
      · rw [if_neg h, if_neg h]
        simpa using refs_eq_amendedRefs rest path _
    | dir es =>
      simp only [processEntries, processEntry, amendedRefs]
      simpa using refs_eq_amendedRefs rest path _

/-- C1 (counterexample): the claim excludes every entry named `test.ts` or
`index.d.ts` from the reference lines, but for a directory entry named
`test.ts` the code emits a subdirectory reference line: on the listing
containing exactly one subdirectory named `test.ts` the code produces one
line where the claim prescribes none. -/
theorem c1_counterexample :
    (processEntries [] [] (.cons "test.ts" (.dir .nil) .nil)).1 =
      ["/// <reference path=\"./test.ts/index.d.ts\" />"] ∧
    claimRefs (.cons "test.ts" (.dir .nil) .nil) = [] := by
  constructor
  · decide
  · decide

/-- C1 (amended): for every directory processed by `linkTypes`, the
reference lines correspond exactly, in count and relative order, to that
directory's listing, where the reserved-filename exclusion applies only to
FILE entries named `index.d.ts` or `test.ts`: each remaining file entry
yields one direct reference line and each subdirectory entry (regardless of
its name) yields one reference line to `name/index.d.ts`, in listing
order. -/
theorem c1_refs_match_listing : ∀ (es : FSList) (path col : List String),
    (processEntries path col es).1 = amendedRefs es :=
  refs_eq_amendedRefs

/-- C5: for every file whose raw text contains neither namespace marker
substring, scanning it leaves the collected-name set unchanged — the
traversal result starting at that file equals the traversal result with the
file removed, whatever its syntactic content. -/
theorem c5_no_marker_no_contribution :
    ∀ (path col : List String) (name content : String) (rest : FSList),
    hasAcodeMarker content = false →
    (processEntries path col (.cons name (.file content) rest)).2.2 =
      (processEntries path col rest).2.2 := by
  intro path col name content rest h
  simp only [processEntries, processEntry]
  by_cases hres : (name == "index.d.ts" || name == "test.ts") = true
  · rw [if_pos hres]
  · rw [if_neg hres]
    simp [h]

/-- Witness for C5 at a file whose text matches the extraction pattern
syntactically but carries no marker. -/
theorem c5_witness :
    hasAcodeMarker "\tinterface Sneaky \x7b\x7d\n\ttype Hidden = 1;\n" = false ∧
    (processEntries [] [] (.cons "a.ts" (.file "\tinterface Sneaky \x7b\x7d\n\ttype Hidden = 1;\n") .nil)).2.2 =
      (processEntries [] [] .nil).2.2 :=
  ⟨by decide,
   c5_no_marker_no_contribution [] [] "a.ts" "\tinterface Sneaky \x7b\x7d\n\ttype Hidden = 1;\n" .nil (by decide)⟩

theorem processEntries_allExcluded : ∀ (es : FSList) (path col : List String),
    allExcludedB es = true → processEntries path col es = ([], [], col)
  | .nil, _, _, _ => rfl
  | .cons n t rest, path, col, h => by
    cases t with
    | file content =>
      simp only [allExcludedB, Bool.and_eq_true] at h
      simp only [processEntries, processEntry, if_pos h.1]
      simpa using processEntries_allExcluded rest path col h.2
    | dir es => simp [allExcludedB] at h

/-- C8: a directory with zero qualifying entries (empty, or containing only
files named `index.d.ts` or `test.ts`) still gets an index artifact written
and its entire content is the single newline character — both for a
subdirectory entry anywhere in the tree and for the scan root itself. -/
theorem c8_empty_dir_newline :
    ∀ (path col : List String) (name : String) (es : FSList),
    allExcludedB es = true →
    (processEntry path col name (.dir es)).2.1 = [(path ++ [name, "index.d.ts"], "\n")] ∧
    (runGen es).treeWrites = [(["index.d.ts"], "\n")] := by
  intro path col name es h
  have h1 := processEntries_allExcluded es (path ++ [name]) col h
  have h2 := processEntries_allExcluded es [] [] h
  constructor
  · simp only [processEntry, h1]
    rfl
  · simp only [runGen, h2]
    rfl

/-- Witness for C8 on a listing holding only the two reserved filenames. -/
theorem c8_witness :
    allExcludedB (.cons "test.ts" (.file "x") (.cons "index.d.ts" (.file "y") .nil)) = true ∧
    ((processEntry ["p"] [] "d" (.dir (.cons "test.ts" (.file "x") (.cons "index.d.ts" (.file "y") .nil)))).2.1 =
        [(["p", "d", "index.d.ts"], "\n")] ∧
      (runGen (.cons "test.ts" (.file "x") (.cons "index.d.ts" (.file "y") .nil))).treeWrites =
        [(["index.d.ts"], "\n")]) :=
  ⟨by decide,
   c8_empty_dir_newline ["p"] [] "d" (.cons "test.ts" (.file "x") (.cons "index.d.ts" (.file "y") .nil)) (by decide)⟩

/-- C9: a DIRECTORY entry named `index.d.ts` or `test.ts` is not skipped:
`linkTypes` recurses into it — in particular the subdirectory's own index
artifact is among the writes — and the parent's reference lines start with
a subdirectory reference line for it. -/
theorem c9_reserved_dir_not_skipped :
    ∀ (path col : List String) (name : String) (es rest : FSList),
    name = "index.d.ts" ∨ name = "test.ts" →
    (processEntries path col (.cons name (.dir es) rest)).1 =
      refLineDir name ::
        (processEntries path (processEntries (path ++ [name]) col es).2.2 rest).1 ∧
    (path ++ [name, "index.d.ts"],
        mkIndexContent (processEntries (path ++ [name]) col es).1) ∈
      (processEntries path col (.cons name (.dir es) rest)).2.1 := by
  intro path col name es rest _
  constructor
  · rfl
  · simp only [processEntries, processEntry]
    exact List.mem_append_left _ (List.mem_append_right _ (List.mem_singleton.mpr rfl))

/-- Witness for C9 with a directory literally named `index.d.ts`. -/
theorem c9_witness :
    ("index.d.ts" = "index.d.ts" ∨ "index.d.ts" = "test.ts") ∧
    ((processEntries [] [] (.cons "index.d.ts" (.dir (.cons "x.ts" (.file "let x = 1;") .nil)) .nil)).1 =
        refLineDir "index.d.ts" ::
          (processEntries []
            (processEntries (["index.d.ts"]) [] (.cons "x.ts" (.file "let x = 1;") .nil)).2.2 .nil).1 ∧
      (["index.d.ts", "index.d.ts"],
          mkIndexContent (processEntries (["index.d.ts"]) [] (.cons "x.ts" (.file "let x = 1;") .nil)).1) ∈
        (processEntries [] [] (.cons "index.d.ts" (.dir (.cons "x.ts" (.file "let x = 1;") .nil)) .nil)).2.1) :=
  ⟨Or.inl rfl,
   by
    have h := c9_reserved_dir_not_skipped [] [] "index.d.ts"
      (.cons "x.ts" (.file "let x = 1;") .nil) .nil (Or.inl rfl)
    simpa using h⟩

/-- C10: for every content string the disjunction
`includes("declare namespace Acode") || includes("namespace Acode")` decides
exactly as the single test `includes("namespace Acode")`, because the first
marker contains the second as a substring (second conjunct). -/
theorem c10_marker_equiv : ∀ content : String,
    hasAcodeMarker content = singleMarkerTest content ∧
    includesStr "declare namespace Acode" "namespace Acode" = true := by
  intro content
  refine ⟨?_, by decide⟩
  unfold hasAcodeMarker singleMarkerTest includesStr
  have key : containsSub "declare namespace Acode".data content.data = true →
      containsSub "namespace Acode".data content.data = true := by
    intro h
    have hsplit : "declare namespace Acode".data = "declare ".data ++ "namespace Acode".data := by
      decide
    rw [hsplit] at h
    exact containsSub_append_mono h
  cases hc : containsSub "namespace Acode".data content.data with
  | true => simp [hc]
  | false =>
    cases hd : containsSub "declare namespace Acode".data content.data with
    | true => exact absurd (key hd) (by simp [hc])
    | false => simp [hd, hc]

mutual
theorem nodup_processEntry : ∀ (path col : List String) (name : String) (t : FSTree),
    col.Nodup → (processEntry path col name t).2.2.Nodup
  | path, col, name, .file content => by
    intro h
    simp only [processEntry]
    split
    · exact h
    · split
      · exact nodup_addTypes h _
      · exact h
  | path, col, name, .dir es => fun h =>
    nodup_processEntries (path ++ [name]) col es h
theorem nodup_processEntries : ∀ (path col : List String) (es : FSList),
    col.Nodup → (processEntries path col es).2.2.Nodup
  | _, col, .nil => fun h => h
  | path, col, .cons n t rest => fun h =>
    nodup_processEntries path _ rest (nodup_processEntry path col n t h)
end

theorem collected_nodup (tree : FSList) : (runGen tree).collected.Nodup :=
  nodup_processEntries [] [] tree List.nodup_nil

/-- C4: the module block of the root artifact is the sorted collected names
mapped through the fixed re-export line template; the sequence of exported
names is non-decreasing under code-point lexicographic order at every
adjacent pair, and each collected name yields exactly one line (a name not
collected yields none). -/
theorem c4_sorted_module_exports : ∀ tree : FSList,
    generateModuleExports (runGen tree).collected =
      "declare module \"acode\" \x7b\n" ++
        String.intercalate "\n" ((sortStrs (runGen tree).collected).map exportLine) ++
        "\n\x7d" ∧
    List.Chain' (· ≤ ·) (sortStrs (runGen tree).collected) ∧
    ∀ t : String, (sortStrs (runGen tree).collected).count t =
      if t ∈ (runGen tree).collected then 1 else 0 := by
  intro tree
  refine ⟨rfl, ?_, ?_⟩
  · exact List.Pairwise.chain' (sortStrs_sorted _)
  · intro t
    rw [(sortStrs_perm (runGen tree).collected).count_eq]
    have hnd := collected_nodup tree
    split
    · rename_i hmem
      exact List.count_eq_one_of_mem hnd hmem
    · rename_i hmem
      exact List.count_eq_zero_of_not_mem hmem

/-- C6 (counterexample): the claim counts one reference to the root's own
generated index plus THREE fixed external declaration sources, which makes
four reference lines; the code emits five fixed reference lines (the own
index plus FOUR external sources: ace, require, xterm, html-tag-js). -/
theorem c6_counterexample : rootRefs.length = 5 ∧ rootRefs.length ≠ 1 + 3 := by
  decide

set_option maxRecDepth 40000 in
/-- C6 (amended): the generated root artifact consists of exactly five
fixed reference-directive lines — a reference to the root's own generated
index plus FOUR fixed external declaration sources — followed by a blank
line, then the synthetic module declaration block naming the fixed public
package identifier `acode`, then a trailing newline. -/
theorem c6_root_format : ∀ col : List String,
    generateRootIndex col =
      "/// <reference path=\"./src/index.d.ts\" />\n" ++
      "/// <reference path=\"./types/ace/index.d.ts\" />\n" ++
      "/// <reference path=\"./types/require.d.ts\" />\n" ++
      "/// <reference path=\"./types/xterm.d.ts\" />\n" ++
      "/// <reference path=\"./types/html-tag-js.d.ts\" />\n" ++
      "\n" ++ generateModuleExports col ++ "\n" ∧
    rootRefs.length = 5 := by
  intro col
  refine ⟨?_, by decide⟩
  have h : String.intercalate "\n" rootRefs ++ "\n\n" =
      "/// <reference path=\"./src/index.d.ts\" />\n" ++
      "/// <reference path=\"./types/ace/index.d.ts\" />\n" ++
      "/// <reference path=\"./types/require.d.ts\" />\n" ++
      "/// <reference path=\"./types/xterm.d.ts\" />\n" ++
      "/// <reference path=\"./types/html-tag-js.d.ts\" />\n" ++
      "\n" := by decide
  show String.intercalate "\n" rootRefs ++ "\n\n" ++ generateModuleExports col ++ "\n" = _
  rw [h]

set_option maxRecDepth 40000 in
/-- C7 (counterexample): on the scenario tree the collected set does NOT
contain `Foo` — `b.ts` carries the marker, but its single line has no
leading tab, so the extraction pattern `^\t(interface|type)\s+(\w+)` never
matches in it and the claimed collected set \x7bFoo, Bar\x7d is wrong. -/
theorem c7_counterexample :
    hasAcodeMarker "declare namespace Acode \x7b type Foo = string; \x7d" = true ∧
    "Foo" ∉ (runGen treeC7).collected := by
  constructor
  · decide
  · decide

set_option maxRecDepth 40000 in
/-- C7 (amended): on the scenario tree the root directory's generated index
has exactly three reference lines in entry order (`a.ts`, `b.ts`,
`sub/index.d.ts`), but the final collected-name set is \x7bBar\x7d alone and
the root artifact's module block contains exactly the single line
`export type Bar = Acode.Bar;` — `Foo` is not collected because the
one-line `b.ts` has no tab-indented declaration line. -/
theorem c7_scenario :
    runGen treeC7 =
      { treeWrites :=
          [(["sub", "index.d.ts"], "/// <reference path=\"./c.ts\" />\n"),
           (["index.d.ts"],
             "/// <reference path=\"./a.ts\" />\n/// <reference path=\"./b.ts\" />\n/// <reference path=\"./sub/index.d.ts\" />\n")]
        rootContent :=
          "/// <reference path=\"./src/index.d.ts\" />\n/// <reference path=\"./types/ace/index.d.ts\" />\n/// <reference path=\"./types/require.d.ts\" />\n/// <reference path=\"./types/xterm.d.ts\" />\n/// <reference path=\"./types/html-tag-js.d.ts\" />\n\ndeclare module \"acode\" \x7b\n\texport type Bar = Acode.Bar;\n\x7d\n"
        collected := ["Bar"] } := by
  decide

mutual
theorem strip_inv_entry : ∀ (path col : List String) (name : String) (t : FSTree),
    processEntry path col name (stripTree t) = processEntry path col name t
  | _, _, _, .file c => rfl
  | path, col, name, .dir es => by
    simp only [stripTree, processEntry, strip_inv_entries (path ++ [name]) col es]
theorem strip_inv_entries : ∀ (path col : List String) (es : FSList),
    processEntries path col (stripList es) = processEntries path col es
  | _, _, .nil => rfl
  | path, col, .cons n t rest => by
    simp only [stripList]
    by_cases hg : ((n == "index.d.ts" || n == "test.ts") && isFileB t) = true
    · rw [if_pos hg]
      obtain ⟨hres, hfile⟩ := Bool.and_eq_true .. |>.mp hg
      cases t with
      | file content =>
        rw [strip_inv_entries path col rest]
        simp only [processEntries, processEntry, if_pos hres]
        simp
      | dir es => simp [isFileB] at hfile
    · rw [if_neg hg]
      simp only [processEntries, strip_inv_entry path col n t,
        strip_inv_entries path _ rest]
end

theorem runGen_strip (tree : FSList) : runGen (stripList tree) = runGen tree := by
  simp [runGen, strip_inv_entries]

theorem runGen_eq_of_strip_eq {a b : FSList} (h : stripList a = stripList b) :
    runGen a = runGen b := by
  rw [← runGen_strip a, ← runGen_strip b, h]

theorem strip_setFile : ∀ (es : FSList) (c : String),
    noIndexDirList es = true →
    stripList (setFile es "index.d.ts" c) = stripList es
  | .nil, c, _ => by simp [setFile, stripList, isFileB]
  | .cons n t rest, c, h => by
    simp only [noIndexDirList, Bool.and_eq_true] at h
    obtain ⟨⟨hguard, htree⟩, hrest⟩ := h
    simp only [setFile]
    by_cases hn : (n == "index.d.ts") = true
    · rw [if_pos hn]
      cases t with
      | file c0 =>
        simp only [stripList, isFileB]
        have : (n == "index.d.ts" || n == "test.ts") = true := by simp [hn]
        rw [if_pos (by simp [this]), if_pos (by simp [this])]
      | dir es =>
        simp only [isFileB, Bool.false_or] at hguard
        rw [beq_iff_eq] at hn
        simp [hn] at hguard
    · rw [if_neg hn]
      simp only [stripList]
      by_cases hg : ((n == "index.d.ts" || n == "test.ts") && isFileB t) = true
      · rw [if_pos hg, if_pos hg]
        exact strip_setFile rest c hrest
      · rw [if_neg hg, if_neg hg, strip_setFile rest c hrest]

theorem noIndexDir_setFile : ∀ (es : FSList) (fname c : String),
    noIndexDirList es = true →
    noIndexDirList (setFile es fname c) = true
  | .nil, fname, c, _ => by simp [setFile, noIndexDirList, noIndexDirTree, isFileB]
  | .cons n t rest, fname, c, h => by
    simp only [noIndexDirList, Bool.and_eq_true] at h
    obtain ⟨⟨hguard, htree⟩, hrest⟩ := h
    simp only [setFile]
    split
    · simp [noIndexDirList, noIndexDirTree, isFileB, hrest]
    · simp only [noIndexDirList, Bool.and_eq_true]
      exact ⟨⟨hguard, htree⟩, noIndexDir_setFile rest fname c hrest⟩

theorem strip_mapDirAt (d : String) (f : FSList → FSList)
    (hf : ∀ inner, noIndexDirList inner = true → stripList (f inner) = stripList inner) :
    ∀ es, noIndexDirList es = true → stripList (mapDirAt d f es) = stripList es
  | .nil, _ => rfl
  | .cons n t rest, h => by
    simp only [noIndexDirList, Bool.and_eq_true] at h
    obtain ⟨⟨hguard, htree⟩, hrest⟩ := h
    cases t with
    | file c =>
      simp only [mapDirAt, stripList]
      by_cases hg : ((n == "index.d.ts" || n == "test.ts") && isFileB (FSTree.file c)) = true
      · rw [if_pos hg, if_pos hg]
        exact strip_mapDirAt d f hf rest hrest
      · rw [if_neg hg, if_neg hg, strip_mapDirAt d f hf rest hrest]
    | dir inner =>
      simp only [mapDirAt]
      by_cases hn : (n == d) = true
      · rw [if_pos hn]
        have hinner : noIndexDirList inner = true := htree
        simp only [stripList, isFileB, Bool.and_false, if_neg (by simp : ¬(false = true)),
          stripTree]
        rw [hf inner hinner]
      · rw [if_neg hn]
        simp only [stripList, isFileB, Bool.and_false, if_neg (by simp : ¬(false = true)),
          stripTree]
        rw [strip_mapDirAt d f hf rest hrest]

theorem noIndexDir_mapDirAt (d : String) (f : FSList → FSList)
    (hf : ∀ inner, noIndexDirList inner = true → noIndexDirList (f inner) = true) :
    ∀ es, noIndexDirList es = true → noIndexDirList (mapDirAt d f es) = true
  | .nil, _ => rfl
  | .cons n t rest, h => by
    simp only [noIndexDirList, Bool.and_eq_true] at h
    obtain ⟨⟨hguard, htree⟩, hrest⟩ := h
    cases t with
    | file c =>
      simp only [mapDirAt, noIndexDirList, Bool.and_eq_true]
      exact ⟨⟨hguard, htree⟩, noIndexDir_mapDirAt d f hf rest hrest⟩
    | dir inner =>
      simp only [mapDirAt]
      by_cases hn : (n == d) = true
      · rw [if_pos hn]
        simp only [noIndexDirList, Bool.and_eq_true]
        refine ⟨⟨hguard, ?_⟩, hrest⟩
        exact hf inner htree
      · rw [if_neg hn]
        simp only [noIndexDirList, Bool.and_eq_true]
        exact ⟨⟨hguard, htree⟩, noIndexDir_mapDirAt d f hf rest hrest⟩

theorem strip_applyWrite : ∀ (d : List String) (c : String) (es : FSList),
    noIndexDirList es = true →
    stripList (applyWrite (d ++ ["index.d.ts"]) c es) = stripList es
  | [], c, es, h => strip_setFile es c h
  | d0 :: d', c, es, h => by
    have hunfold : applyWrite ((d0 :: d') ++ ["index.d.ts"]) c es =
        mapDirAt d0 (applyWrite (d' ++ ["index.d.ts"]) c) es := by
      cases d' <;> rfl
    rw [hunfold]
    exact strip_mapDirAt d0 _ (fun inner hinner => strip_applyWrite d' c inner hinner) es h

theorem noIndexDir_applyWrite : ∀ (d : List String) (c : String) (es : FSList),
    noIndexDirList es = true →
    noIndexDirList (applyWrite (d ++ ["index.d.ts"]) c es) = true
  | [], c, es, h => noIndexDir_setFile es "index.d.ts" c h
  | d0 :: d', c, es, h => by
    have hunfold : applyWrite ((d0 :: d') ++ ["index.d.ts"]) c es =
        mapDirAt d0 (applyWrite (d' ++ ["index.d.ts"]) c) es := by
      cases d' <;> rfl
    rw [hunfold]
    exact noIndexDir_mapDirAt d0 _ (fun inner hinner => noIndexDir_applyWrite d' c inner hinner) es h

theorem strip_applyWrites : ∀ (ws : List (List String × String)) (es : FSList),
    noIndexDirList es = true →
    (∀ w ∈ ws, ∃ d, w.1 = d ++ ["index.d.ts"]) →
    stripList (applyWrites es ws) = stripList es ∧
    noIndexDirList (applyWrites es ws) = true := by
  intro ws
  induction ws with
  | nil => intro es h _; exact ⟨rfl, h⟩
  | cons w ws ih =>
    intro es h hshape
    obtain ⟨d, hd⟩ := hshape w (List.mem_cons_self w ws)
    have h1 : stripList (applyWrite w.1 w.2 es) = stripList es := by
      rw [hd]; exact strip_applyWrite d w.2 es h
    have h2 : noIndexDirList (applyWrite w.1 w.2 es) = true := by
      rw [hd]; exact noIndexDir_applyWrite d w.2 es h
    have hrest : ∀ v ∈ ws, ∃ d, v.1 = d ++ ["index.d.ts"] :=
      fun v hv => hshape v (List.mem_cons_of_mem w hv)
    have := ih (applyWrite w.1 w.2 es) h2 hrest
    exact ⟨this.1.trans h1, this.2⟩

mutual
theorem writes_shape_entry : ∀ (path col : List String) (name : String) (t : FSTree),
    ∀ w ∈ (processEntry path col name t).2.1, ∃ d, w.1 = d ++ ["index.d.ts"]
  | path, col, name, .file content => by
    intro w hw
    simp only [processEntry] at hw
    split at hw <;> simp at hw
  | path, col, name, .dir es => by
    intro w hw
    simp only [processEntry] at hw
    rcases List.mem_append.mp hw with hw | hw
    · exact writes_shape_entries (path ++ [name]) col es w hw
    · refine ⟨path ++ [name], ?_⟩
      have := List.mem_singleton.mp hw
      subst this
      simp
theorem writes_shape_entries : ∀ (path col : List String) (es : FSList),
    ∀ w ∈ (processEntries path col es).2.1, ∃ d, w.1 = d ++ ["index.d.ts"]
  | _, _, .nil => by intro w hw; simp [processEntries] at hw
  | path, col, .cons n t rest => by
    intro w hw
    simp only [processEntries] at hw
    rcases List.mem_append.mp hw with hw | hw
    · exact writes_shape_entry path col n t w hw
    · exact writes_shape_entries path _ rest w hw
end

/-- C3: running the generator a second time on the tree produced by the
first run (each directory now holding the written `index.d.ts`, everything
else unchanged) reproduces byte-identical artifacts: the per-directory
index writes, the root artifact and the collected set are all equal. The
hypothesis rules out directory entries named `index.d.ts`, on which a real
first run would already abort in `writeFileSync`. Determinism across runs
on equal input is definitional in this embedding (`runGen` is a function
of the tree). -/
theorem c3_idempotent : ∀ tree : FSList, noIndexDirList tree = true →
    runGen (applyWrites tree (runGen tree).treeWrites) = runGen tree := by
  intro tree h
  have hshape : ∀ w ∈ (runGen tree).treeWrites, ∃ d, w.1 = d ++ ["index.d.ts"] := by
    intro w hw
    simp only [runGen] at hw
    rcases List.mem_append.mp hw with hw | hw
    · exact writes_shape_entries [] [] tree w hw
    · refine ⟨[], ?_⟩
      have := List.mem_singleton.mp hw
      subst this
      simp
  exact runGen_eq_of_strip_eq (strip_applyWrites (runGen tree).treeWrites tree h hshape).1

set_option maxRecDepth 40000 in
/-- Witness for C3 on a small tree with one marked file and one
subdirectory. -/
theorem c3_witness :
    noIndexDirList (.cons "m.ts" (.file "namespace Acode\n\ttype Baz = 1;\n")
      (.cons "d" (.dir .nil) .nil)) = true ∧
    runGen (applyWrites
      (.cons "m.ts" (.file "namespace Acode\n\ttype Baz = 1;\n")
        (.cons "d" (.dir .nil) .nil))
      (runGen (.cons "m.ts" (.file "namespace Acode\n\ttype Baz = 1;\n")
        (.cons "d" (.dir .nil) .nil))).treeWrites) =
    runGen (.cons "m.ts" (.file "namespace Acode\n\ttype Baz = 1;\n")
      (.cons "d" (.dir .nil) .nil)) :=
  ⟨by decide,
   c3_idempotent
     (.cons "m.ts" (.file "namespace Acode\n\ttype Baz = 1;\n")
       (.cons "d" (.dir .nil) .nil)) (by decide)⟩

theorem noTermB_iff {l : List Char} :
    noTermB l = true ↔ ∀ c ∈ l, isLineTerm c = false := by
  simp [noTermB]

theorem noTermB_sublist {l l' : List Char} (hs : List.Sublist l' l)
    (h : noTermB l = true) : noTermB l' = true := by
  rw [noTermB_iff] at h ⊢
  exact fun c hc => h c (hs.subset hc)

theorem takeWhile_append_stop {p : Char → Bool} :
    ∀ (l s : List Char) (x : Char) (xs : List Char),
    l.dropWhile p = x :: xs → (l ++ s).takeWhile p = l.takeWhile p := by
  intro l
  induction l with
  | nil => intro s x xs h; simp [List.dropWhile] at h
  | cons c l ih =>
    intro s x xs h
    simp only [List.dropWhile] at h
    cases hc : p c with
    | true =>
      rw [hc] at h
      simp only [List.cons_append, List.takeWhile, hc]
      exact congrArg (List.cons c) (ih s x xs h)
    | false =>
      simp only [List.cons_append, List.takeWhile, hc]

theorem dropWhile_append_stop {p : Char → Bool} :
    ∀ (l s : List Char) (x : Char) (xs : List Char),
    l.dropWhile p = x :: xs → (l ++ s).dropWhile p = x :: (xs ++ s) := by
  intro l
  induction l with
  | nil => intro s x xs h; simp [List.dropWhile] at h
  | cons c l ih =>
    intro s x xs h
    simp only [List.dropWhile] at h
    cases hc : p c with
    | true =>
      rw [hc] at h
      simp only [List.cons_append, List.dropWhile, hc]
      exact ih s x xs h
    | false =>
      rw [hc] at h
      injection h with h1 h2
      subst h1
      subst h2
      simp [List.dropWhile, hc]

theorem takeWhile_append_all {p : Char → Bool} :
    ∀ (l s : List Char), l.dropWhile p = [] →
    (l ++ s).takeWhile p = l ++ s.takeWhile p := by
  intro l
  induction l with
  | nil => intro s _; simp
  | cons c l ih =>
    intro s h
    simp only [List.dropWhile] at h
    cases hc : p c with
    | true =>
      rw [hc] at h
      simp only [List.cons_append, List.takeWhile, hc]
      exact congrArg (List.cons c) (ih s h)
    | false => rw [hc] at h; simp at h

theorem dropWhile_append_all {p : Char → Bool} :
    ∀ (l s : List Char), l.dropWhile p = [] →
    (l ++ s).dropWhile p = s.dropWhile p := by
  intro l
  induction l with
  | nil => intro s _; simp
  | cons c l ih =>
    intro s h
    simp only [List.dropWhile] at h
    cases hc : p c with
    | true =>
      rw [hc] at h
      simp only [List.cons_append, List.dropWhile, hc]
      exact ih s h
    | false => rw [hc] at h; simp at h

theorem ipo_append : ∀ (p l s : List Char),
    List.isPrefixOf p l = true → List.isPrefixOf p (l ++ s) = true := by
  intro p
  induction p with
  | nil => intro l s _; simp [List.isPrefixOf]
  | cons a p ih =>
    intro l s h
    cases l with
    | nil => simp [List.isPrefixOf] at h
    | cons b l =>
      simp only [List.isPrefixOf, Bool.and_eq_true] at h
      simp only [List.cons_append, List.isPrefixOf, Bool.and_eq_true]
      exact ⟨h.1, ih l s h.2⟩

theorem ipo_length : ∀ (p l : List Char),
    List.isPrefixOf p l = true → p.length ≤ l.length := by
  intro p
  induction p with
  | nil => intro l _; simp
  | cons a p ih =>
    intro l h
    cases l with
    | nil => simp [List.isPrefixOf] at h
    | cons b l =>
      simp only [List.isPrefixOf, Bool.and_eq_true] at h
      simpa using ih l h.2

theorem ipo_ne_append : ∀ (p l : List Char) (t : Char) (s : List Char),
    List.isPrefixOf p l = false → (∀ c ∈ p, isLineTerm c = false) →
    isLineTerm t = true → List.isPrefixOf p (l ++ t :: s) = false := by
  intro p
  induction p with
  | nil => intro l t s h _ _; simp [List.isPrefixOf] at h
  | cons a p ih =>
    intro l t s h hp ht
    cases l with
    | nil =>
      simp only [List.nil_append, List.isPrefixOf]
      have ha : isLineTerm a = false := hp a (List.mem_cons_self a p)
      have hat : (a == t) = false := by
        rw [beq_eq_false_iff_ne]
        intro hh
        rw [hh, ht] at ha
        simp at ha
      simp [hat]
    | cons b l =>
      simp only [List.isPrefixOf] at h
      simp only [List.cons_append, List.isPrefixOf]
      cases hab : a == b with
      | false => simp [hab]
      | true =>
        rw [hab] at h
        simp only [Bool.true_and] at h ⊢
        exact ih l t s h (fun c hc => hp c (List.mem_cons_of_mem a hc)) ht

theorem matchKeyword_some_append {r r2 : List Char} (h : matchKeyword r = some r2)
    (s : List Char) : matchKeyword (r ++ s) = some (r2 ++ s) := by
  unfold matchKeyword at h ⊢
  by_cases hi : List.isPrefixOf "interface".data r = true
  · rw [if_pos hi] at h
    cases h
    rw [if_pos (ipo_append _ _ _ hi)]
    have hlen : 9 ≤ r.length := by
      have h9 := ipo_length _ _ hi
      have : ("interface".data).length = 9 := by decide
      omega
    rw [List.drop_append_of_le_length hlen]
  · rw [if_neg hi] at h
    by_cases ht : List.isPrefixOf "type".data r = true
    · rw [if_pos ht] at h
      cases h
      obtain ⟨r', hr'⟩ : ∃ r', r = 't' :: r' := by
        have htd : "type".data = 't' :: "ype".data := by decide
        rw [htd] at ht
        cases r with
        | nil => simp [List.isPrefixOf] at ht
        | cons b r' =>
          simp only [List.isPrefixOf, Bool.and_eq_true, beq_iff_eq] at ht
          exact ⟨r', by rw [ht.1]⟩
      have hi2 : List.isPrefixOf "interface".data (r ++ s) = false := by
        rw [hr']
        have hid : "interface".data = 'i' :: "nterface".data := by decide
        rw [hid]
        simp [List.isPrefixOf]
      rw [if_neg (by simp [hi2])]
      rw [if_pos (ipo_append _ _ _ ht)]
      have hlen : 4 ≤ r.length := by
        have h4 := ipo_length _ _ ht
        have : ("type".data).length = 4 := by decide
        omega
      rw [List.drop_append_of_le_length hlen]
    · rw [if_neg ht] at h
      simp at h

theorem matchKeyword_none_append {r : List Char} (h : matchKeyword r = none)
    {t : Char} (ht : isLineTerm t = true) (s : List Char) :
    matchKeyword (r ++ t :: s) = none := by
  unfold matchKeyword at h ⊢
  by_cases hi : List.isPrefixOf "interface".data r = true
  · rw [if_pos hi] at h; simp at h
  · rw [if_neg hi] at h
    by_cases htp : List.isPrefixOf "type".data r = true
    · rw [if_pos htp] at h; simp at h
    · have hno_i : ∀ c ∈ "interface".data, isLineTerm c = false := by decide
      have hno_t : ∀ c ∈ "type".data, isLineTerm c = false := by decide
      have h1 : List.isPrefixOf "interface".data (r ++ t :: s) = false :=
        ipo_ne_append "interface".data r t s (Bool.eq_false_iff.mpr hi) hno_i ht
      have h2 : List.isPrefixOf "type".data (r ++ t :: s) = false :=
        ipo_ne_append "type".data r t s (Bool.eq_false_iff.mpr htp) hno_t ht
      rw [if_neg (by rw [h1]; simp)]
      rw [if_neg (by rw [h2]; simp)]

theorem matchKeyword_sub {r r2 : List Char} (h : matchKeyword r = some r2) :
    List.Sublist r2 r := by
  unfold matchKeyword at h
  split at h
  · cases h; exact List.drop_sublist 9 r
  · split at h
    · cases h; exact List.drop_sublist 4 r
    · simp at h

theorem matchAt_some_startsTabKw {l : List Char} {pr : String × List Char}
    (h : matchAt l = some pr) : startsTabKwB l = true := by
  match l with
  | [] => simp [matchAt] at h
  | c :: r =>
    simp only [matchAt] at h
    split at h
    · rename_i htab
      simp only [startsTabKwB, htab, Bool.true_and]
      cases hk : matchKeyword r with
      | none => rw [hk] at h; simp at h
      | some r2 => simp [hk]
    · simp at h

theorem matchAt_rest_sublist {l : List Char} {id : String} {r : List Char}
    (h : matchAt l = some (id, r)) : List.Sublist r l := by
  match l with
  | [] => simp [matchAt] at h
  | c :: cs =>
    simp only [matchAt] at h
    split at h
    · cases hk : matchKeyword cs with
      | none => rw [hk] at h; simp at h
      | some r2 =>
        rw [hk] at h
        simp only [] at h
        split at h
        · simp at h
        · split at h
          · simp at h
          · have hr : r = (r2.dropWhile isJsSpace).dropWhile isWordChar := by
              have h3 := Option.some.inj h
              exact (congrArg Prod.snd h3).symm
            rw [hr]
            have s1 : List.Sublist ((r2.dropWhile isJsSpace).dropWhile isWordChar)
                (r2.dropWhile isJsSpace) := List.dropWhile_sublist _
            have s2 : List.Sublist (r2.dropWhile isJsSpace) r2 := List.dropWhile_sublist _
            have s3 : List.Sublist r2 cs := matchKeyword_sub hk
            exact ((s1.trans s2).trans s3).trans (List.sublist_cons_self c cs)
    · simp at h

theorem dropWhile_head_false {p : Char → Bool} :
    ∀ {l : List Char} {x : Char} {xs : List Char},
    l.dropWhile p = x :: xs → p x = false := by
  intro l
  induction l with
  | nil => intro x xs h; simp [List.dropWhile] at h
  | cons c l ih =>
    intro x xs h
    simp only [List.dropWhile] at h
    cases hc : p c with
    | true => rw [hc] at h; exact ih h
    | false =>
      rw [hc] at h
      injection h with h1 h2
      subst h1
      exact hc

theorem takeWhile_eq_self_of_dropWhile_nil {p : Char → Bool} {l : List Char}
    (h : l.dropWhile p = []) : l.takeWhile p = l := by
  have := List.takeWhile_append_dropWhile p l
  rw [h, List.append_nil] at this
  exact this

theorem takeWhile_cons_false {p : Char → Bool} {t : Char} (h : p t = false)
    (s : List Char) : (t :: s).takeWhile p = [] := by
  simp [List.takeWhile, h]

theorem dropWhile_cons_false {p : Char → Bool} {t : Char} (h : p t = false)
    (s : List Char) : (t :: s).dropWhile p = t :: s := by
  simp [List.dropWhile, h]

/-- A successful line-local match extends to the same match on the full
content: the whitespace run stops at the identifier's first character and
the identifier run stops at the line terminator. -/
theorem matchAt_some_append {l : List Char} {id : String} {r : List Char}
    (h : matchAt l = some (id, r)) {t : Char} (ht : isLineTerm t = true)
    (s : List Char) : matchAt (l ++ t :: s) = some (id, r ++ t :: s) := by
  match l with
  | [] => simp [matchAt] at h
  | c :: cs =>
    simp only [matchAt] at h
    split at h
    · rename_i htab
      cases hk : matchKeyword cs with
      | none => rw [hk] at h; simp at h
      | some r2 =>
        rw [hk] at h
        simp only [] at h
        split at h
        · simp at h
        · rename_i hws
          split at h
          · simp at h
          · rename_i hid
            have h3 := Option.some.inj h
            have hid_eq : String.mk ((r2.dropWhile isJsSpace).takeWhile isWordChar) = id :=
              congrArg Prod.fst h3
            have hr_eq : (r2.dropWhile isJsSpace).dropWhile isWordChar = r :=
              congrArg Prod.snd h3
            obtain ⟨w, ws', hw⟩ : ∃ w ws', r2.dropWhile isJsSpace = w :: ws' := by
              cases hdw : r2.dropWhile isJsSpace with
              | nil =>
                rw [hdw] at hid
                simp at hid
              | cons w ws' => exact ⟨w, ws', rfl⟩
            have htw2 : (r2 ++ t :: s).takeWhile isJsSpace = r2.takeWhile isJsSpace :=
              takeWhile_append_stop r2 (t :: s) w ws' hw
            have hdw2 : (r2 ++ t :: s).dropWhile isJsSpace = (w :: ws') ++ t :: s := by
              have := dropWhile_append_stop r2 (t :: s) w ws' hw
              simpa using this
            simp only [List.cons_append, matchAt, htab, if_true]
            rw [matchKeyword_some_append hk (t :: s)]
            simp only [htw2, hdw2]
            rw [if_neg hws]
            cases hW : (w :: ws').dropWhile isWordChar with
            | cons x xs =>
              have htwW : ((w :: ws') ++ t :: s).takeWhile isWordChar =
                  (w :: ws').takeWhile isWordChar :=
                takeWhile_append_stop (w :: ws') (t :: s) x xs hW
              have hdwW : ((w :: ws') ++ t :: s).dropWhile isWordChar = x :: (xs ++ t :: s) :=
                dropWhile_append_stop (w :: ws') (t :: s) x xs hW
              rw [htwW, hdwW]
              rw [hw] at hid
              rw [if_neg hid]
              rw [hw] at hid_eq hr_eq
              rw [hid_eq]
              rw [hW] at hr_eq
              rw [← hr_eq]
              simp
            | nil =>
              have htwW : ((w :: ws') ++ t :: s).takeWhile isWordChar =
                  (w :: ws') ++ (t :: s).takeWhile isWordChar :=
                takeWhile_append_all (w :: ws') (t :: s) hW
              have hdwW : ((w :: ws') ++ t :: s).dropWhile isWordChar =
                  (t :: s).dropWhile isWordChar :=
                dropWhile_append_all (w :: ws') (t :: s) hW
              have htword : isWordChar t = false := lineTerm_not_word ht
              rw [htwW, hdwW, takeWhile_cons_false htword, dropWhile_cons_false htword]
              rw [List.append_nil]
              have hself : (w :: ws').takeWhile isWordChar = w :: ws' :=
                takeWhile_eq_self_of_dropWhile_nil hW
              rw [hw] at hid hid_eq hr_eq
              rw [hW] at hr_eq
              have : ¬((w :: ws').isEmpty = true) := by simp
              rw [if_neg (by rw [hself] at hid; exact hid)]
              rw [hself] at hid_eq
              rw [hid_eq, ← hr_eq]
              simp
    · simp at h

/-- A line that does not begin with tab+keyword yields no match at its
start position even within the full content. -/
theorem matchAt_none_append {l : List Char} (hstk : startsTabKwB l = false)
    {t : Char} (ht : isLineTerm t = true) (s : List Char) :
    matchAt (l ++ t :: s) = none := by
  cases l with
  | nil =>
    simp only [List.nil_append, matchAt]
    simp [lineTerm_not_tab ht]
  | cons c r =>
    simp only [startsTabKwB] at hstk
    simp only [List.cons_append, matchAt]
    by_cases htab : (c == '\t') = true
    · rw [htab] at hstk
      simp only [Bool.true_and] at hstk
      have hk : matchKeyword r = none := by
        cases hmk : matchKeyword r with
        | none => rfl
        | some r2 => rw [hmk] at hstk; simp at hstk
      rw [htab, matchKeyword_none_append hk ht s]
      simp
    · have : (c == '\t') = false := by simpa using htab
      simp [this]

theorem dropLine_noTerm : ∀ {l : List Char}, noTermB l = true → dropLine l = [] := by
  intro l
  induction l with
  | nil => intro _; rfl
  | cons c cs ih =>
    intro h
    rw [noTermB_iff] at h
    have hc : isLineTerm c = false := h c (List.mem_cons_self c cs)
    simp only [dropLine, hc]
    exact ih (noTermB_iff.mpr fun x hx => h x (List.mem_cons_of_mem c hx))

theorem dropLine_append_term : ∀ {l : List Char}, noTermB l = true →
    ∀ {t : Char}, isLineTerm t = true → ∀ (s : List Char),
    dropLine (l ++ t :: s) = s := by
  intro l
  induction l with
  | nil =>
    intro _ t ht s
    simp [dropLine, ht]
  | cons c cs ih =>
    intro h t ht s
    rw [noTermB_iff] at h
    have hc : isLineTerm c = false := h c (List.mem_cons_self c cs)
    simp only [List.cons_append, dropLine, hc]
    exact ih (noTermB_iff.mpr fun x hx => h x (List.mem_cons_of_mem c hx)) ht s

theorem splitLinesAux_noTerm : ∀ {l : List Char}, noTermB l = true →
    ∀ acc : List Char, splitLinesAux acc l = [acc.reverse ++ l] := by
  intro l
  induction l with
  | nil => intro _ acc; simp [splitLinesAux]
  | cons c cs ih =>
    intro h acc
    rw [noTermB_iff] at h
    have hc : isLineTerm c = false := h c (List.mem_cons_self c cs)
    simp only [splitLinesAux, hc]
    rw [if_neg (by simp)]
    rw [ih (noTermB_iff.mpr fun x hx => h x (List.mem_cons_of_mem c hx)) (c :: acc)]
    simp

theorem splitLinesAux_append_term : ∀ {l : List Char}, noTermB l = true →
    ∀ {t : Char}, isLineTerm t = true → ∀ (s acc : List Char),
    splitLinesAux acc (l ++ t :: s) = (acc.reverse ++ l) :: splitLines s := by
  intro l
  induction l with
  | nil =>
    intro _ t ht s acc
    simp [splitLinesAux, ht, splitLines]
  | cons c cs ih =>
    intro h t ht s acc
    rw [noTermB_iff] at h
    have hc : isLineTerm c = false := h c (List.mem_cons_self c cs)
    simp only [List.cons_append, splitLinesAux, hc, List.append_eq]
    rw [if_neg (by simp)]
    rw [ih (noTermB_iff.mpr fun x hx => h x (List.mem_cons_of_mem c hx)) ht s (c :: acc)]
    simp

theorem splitLines_noTerm {l : List Char} (h : noTermB l = true) :
    splitLines l = [l] := by
  rw [splitLines, splitLinesAux_noTerm h []]
  simp

theorem splitLines_append_term {l : List Char} (h : noTermB l = true)
    {t : Char} (ht : isLineTerm t = true) (s : List Char) :
    splitLines (l ++ t :: s) = l :: splitLines s := by
  rw [splitLines, splitLinesAux_append_term h ht s []]
  simp

theorem noTermB_takeWhile (cs : List Char) :
    noTermB (cs.takeWhile fun c => !isLineTerm c) = true := by
  rw [noTermB_iff]
  intro c hc
  have := List.mem_takeWhile_imp hc
  simpa using this

/-- If every tab+keyword line of the content completes its match within its
own line, then the identifier of every line-local match is among the
scanner's captures. -/
theorem scan_complete : ∀ (n : Nat) (cs : List Char), cs.length ≤ n →
    (∀ l' ∈ splitLines cs, startsTabKwB l' = true → (matchAt l').isSome = true) →
    ∀ (l : List Char) (id : String) (r : List Char),
    l ∈ splitLines cs → matchAt l = some (id, r) →
    id ∈ scanFuel (cs.length + 1) cs := by
  intro n
  induction n with
  | zero =>
    intro cs hlen hP l id r hl hm
    have hnil : cs = [] := List.length_eq_zero.mp (Nat.le_zero.mp hlen)
    subst hnil
    simp [splitLines, splitLinesAux] at hl
    subst hl
    simp [matchAt] at hm
  | succ n ih =>
    intro cs hlen hP l id r hl hm
    cases hd : cs.dropWhile (fun c => !isLineTerm c) with
    | nil =>
      have hcs : cs.takeWhile (fun c => !isLineTerm c) = cs :=
        takeWhile_eq_self_of_dropWhile_nil hd
      have hnt : noTermB cs = true := by
        rw [← hcs]; exact noTermB_takeWhile cs
      rw [splitLines_noTerm hnt] at hl
      have hleq : l = cs := by simpa using hl
      subst hleq
      rw [scan_unfold l, hm]
      exact List.mem_cons_self _ _
    | cons t rest =>
      have ht : isLineTerm t = true := by
        have := dropWhile_head_false hd
        simpa using this
      have heq : cs = (cs.takeWhile fun c => !isLineTerm c) ++ t :: rest := by
        conv_lhs => rw [← List.takeWhile_append_dropWhile (fun c => !isLineTerm c) cs]
        rw [hd]
      have hnt : noTermB (cs.takeWhile fun c => !isLineTerm c) = true := noTermB_takeWhile cs
      have hcl : cs.length = (cs.takeWhile fun c => !isLineTerm c).length + rest.length + 1 := by
        conv_lhs => rw [heq]
        simp
        omega
      have hlenr : rest.length ≤ n := by omega
      rw [heq] at hl hP
      rw [heq]
      rw [splitLines_append_term hnt ht rest] at hl hP
      have hPrest : ∀ l' ∈ splitLines rest, startsTabKwB l' = true → (matchAt l').isSome = true :=
        fun l' hl' hs => hP l' (List.mem_cons_of_mem _ hl') hs
      cases hma : matchAt (cs.takeWhile fun c => !isLineTerm c) with
      | some pr =>
        obtain ⟨id0, r0⟩ := pr
        have hfull := matchAt_some_append hma ht rest
        rw [scan_unfold, hfull]
        simp only []
        have hr0nt : noTermB r0 = true := noTermB_sublist (matchAt_rest_sublist hma) hnt
        have hdl : dropLine (r0 ++ t :: rest) = rest := dropLine_append_term hr0nt ht rest
        rw [hdl]
        rcases List.mem_cons.mp hl with hleq | hl
        · subst hleq
          rw [hma] at hm
          injection hm with hm2
          injection hm2 with hma1 hma2
          subst hma1
          exact List.mem_cons_self _ _
        · exact List.mem_cons_of_mem _ (ih rest hlenr hPrest l id r hl hm)
      | none =>
        have hstk : startsTabKwB (cs.takeWhile fun c => !isLineTerm c) = false := by
          cases hs : startsTabKwB (cs.takeWhile fun c => !isLineTerm c) with
          | false => rfl
          | true =>
            have := hP _ (List.mem_cons_self _ _) hs
            rw [hma] at this
            simp at this
        have hfull := matchAt_none_append hstk ht rest
        rw [scan_unfold, hfull]
        simp only []
        rw [if_neg (by simp)]
        have hdl : dropLine ((cs.takeWhile fun c => !isLineTerm c) ++ t :: rest) = rest :=
          dropLine_append_term hnt ht rest
        rw [hdl]
        rcases List.mem_cons.mp hl with hleq | hl
        · subst hleq
          rw [hma] at hm
          simp at hm
        · exact ih rest hlenr hPrest l id r hl hm

mutual
theorem mem_collected_entry : ∀ (path col : List String) (name : String) (t : FSTree)
    (x : String), x ∈ col → x ∈ (processEntry path col name t).2.2
  | path, col, name, .file content, x => by
    intro hx
    simp only [processEntry]
    split
    · exact hx
    · split
      · exact mem_addTypes_left hx _
      · exact hx
  | path, col, name, .dir es, x => fun hx =>
    mem_collected_entries (path ++ [name]) col es x hx
theorem mem_collected_entries : ∀ (path col : List String) (es : FSList) (x : String),
    x ∈ col → x ∈ (processEntries path col es).2.2
  | _, col, .nil, x => fun hx => hx
  | path, col, .cons n t rest, x => fun hx =>
    mem_collected_entries path _ rest x (mem_collected_entry path col n t x hx)
end

theorem fileInList_collected : ∀ {es : FSList} {name content : String},
    FileInList es name content →
    name ≠ "index.d.ts" → name ≠ "test.ts" → hasAcodeMarker content = true →
    ∀ (path col : List String) (id : String),
    id ∈ extractTypesFromNamespace content →
    id ∈ (processEntries path col es).2.2 := by
  intro es name content hf
  induction hf with
  | head name content rest =>
    intro h1 h2 hmk path col id hid
    simp only [processEntries, processEntry]
    have hres : (name == "index.d.ts" || name == "test.ts") = false := by
      simp [h1, h2]
    rw [if_neg (by rw [hres]; simp)]
    rw [if_pos hmk]
    exact mem_collected_entries path _ rest id (mem_addTypes_right _ hid)
  | tail n t hrec ih =>
    intro h1 h2 hmk path col id hid
    simp only [processEntries]
    exact ih h1 h2 hmk path _ id hid
  | sub d rest hrec ih =>
    intro h1 h2 hmk path col id hid
    simp only [processEntries, processEntry]
    exact mem_collected_entries path _ rest id (ih h1 h2 hmk (path ++ [d]) col id hid)

/-- C2 (counterexample): the file carries the marker and its third line
`\ttype Foo = 1;` has exactly the claimed shape (tab, keyword, whitespace,
identifier `Foo`), yet `Foo` is not in the final collected set: the
preceding line `\tinterface` starts a match whose greedy `\s+` crosses the
line terminator and captures `type` instead, and the scan resumes past the
start of the `Foo` line. -/
theorem c2_counterexample :
    FileInList (.cons "b.ts" (.file "namespace Acode\n\tinterface\n\ttype Foo = 1;\n") .nil)
      "b.ts" "namespace Acode\n\tinterface\n\ttype Foo = 1;\n" ∧
    hasAcodeMarker "namespace Acode\n\tinterface\n\ttype Foo = 1;\n" = true ∧
    "\ttype Foo = 1;".data ∈ splitLines "namespace Acode\n\tinterface\n\ttype Foo = 1;\n".data ∧
    matchAt "\ttype Foo = 1;".data = some ("Foo", " = 1;".data) ∧
    "Foo" ∉
      (runGen (.cons "b.ts" (.file "namespace Acode\n\tinterface\n\ttype Foo = 1;\n") .nil)).collected :=
  ⟨.head _ _ _, by decide, by decide, by decide, by decide⟩

/-- C2 (amended): for every scanned file (reserved names excluded) whose
raw text contains a namespace marker substring AND in which every line
beginning with tab+keyword completes the pattern within its own line, every
identifier occurring on a line of the shape "single leading indentation
unit, keyword `interface` or `type`, whitespace, identifier" appears in the
final collected-name set, and appears exactly once no matter how many
marked files declare a name with that spelling. -/
theorem c2_marked_names_collected :
    ∀ (es : FSList) (name content : String) (l : List Char) (id : String) (r : List Char),
    FileInList es name content →
    name ≠ "index.d.ts" → name ≠ "test.ts" →
    hasAcodeMarker content = true →
    linesOkB content = true →
    l ∈ splitLines content.data →
    matchAt l = some (id, r) →
    id ∈ (runGen es).collected ∧ (runGen es).collected.count id = 1 := by
  intro es name content l id r hf h1 h2 hmk hok hl hm
  have hP : ∀ l' ∈ splitLines content.data,
      startsTabKwB l' = true → (matchAt l').isSome = true := by
    intro l' hl' hs
    simp only [linesOkB, List.all_eq_true] at hok
    have := hok l' hl'
    rw [hs] at this
    simpa using this
  have hscan : id ∈ extractTypesFromNamespace content :=
    scan_complete content.data.length content.data le_rfl hP l id r hl hm
  have hmem : id ∈ (runGen es).collected :=
    fileInList_collected hf h1 h2 hmk [] [] id hscan
  exact ⟨hmem, List.count_eq_one_of_mem (collected_nodup es) hmem⟩

/-- Witness for C2 on a one-file tree whose marked file declares
`interface Foo` at single-tab indent. -/
theorem c2_witness :
    (FileInList (.cons "b.ts" (.file "namespace Acode\n\tinterface Foo \x7b\x7d\n") .nil)
        "b.ts" "namespace Acode\n\tinterface Foo \x7b\x7d\n" ∧
      "b.ts" ≠ "index.d.ts" ∧ "b.ts" ≠ "test.ts" ∧
      hasAcodeMarker "namespace Acode\n\tinterface Foo \x7b\x7d\n" = true ∧
      linesOkB "namespace Acode\n\tinterface Foo \x7b\x7d\n" = true ∧
      "\tinterface Foo \x7b\x7d".data ∈
        splitLines "namespace Acode\n\tinterface Foo \x7b\x7d\n".data ∧
      matchAt "\tinterface Foo \x7b\x7d".data = some ("Foo", " \x7b\x7d".data)) ∧
    ("Foo" ∈
        (runGen (.cons "b.ts" (.file "namespace Acode\n\tinterface Foo \x7b\x7d\n") .nil)).collected ∧
      (runGen (.cons "b.ts"
        (.file "namespace Acode\n\tinterface Foo \x7b\x7d\n") .nil)).collected.count "Foo" = 1) :=
  ⟨⟨.head _ _ _, by decide, by decide, by decide, by decide, by decide, by decide⟩,
   c2_marked_names_collected
     (.cons "b.ts" (.file "namespace Acode\n\tinterface Foo \x7b\x7d\n") .nil)
     "b.ts" "namespace Acode\n\tinterface Foo \x7b\x7d\n"
     ("\tinterface Foo \x7b\x7d".data) "Foo" (" \x7b\x7d".data)
     (.head _ _ _) (by decide) (by decide) (by decide) (by decide) (by decide) (by decide)⟩
